import Mathlib

/-!
# Verification of the RAG service (`src/`)

A shallow embedding, in Lean 4, of the pure content of the service's
source files:

* `src/utils.py` — `chunk_text`, `preprocess_text`, `extract_txt_text`,
  `llm_chat_chain`;
* `src/app.py` — the `/upload` dispatch on filename extension, and the
  `/chat` websocket loop with its per-connection history dictionary.

Python strings are modelled as `List Char` (a Python `str` is a sequence
of Unicode code points; Lean's `Char` is exactly a Unicode scalar value),
byte strings as `List Nat` with each byte below 256, and the external
backends (Pinecone retrieval, the OpenAI chat model, the PDF/DOCX
extractors) as explicit function parameters so that theorems can
quantify over their behaviour.
-/

namespace RagService

/-! ## Character classes

`preprocess_text` uses the regexes `\s+` and `[^\w\s]` and `str.strip()`.
We model the ASCII fragment of Python's `\s` and `\w` classes. -/

/-- The ASCII whitespace characters matched by Python's `\s`
(space, tab, newline, carriage return, vertical tab, form feed). -/
def is_space_char (c : Char) : Bool :=
  c = ' ' || c = '\t' || c = '\n' || c = '\r' || c = '\x0b' || c = '\x0c'

/-- The ASCII word characters matched by Python's `\w`:
letters, digits and underscore. -/
def is_word_char (c : Char) : Bool :=
  c.isAlphanum || c = '_'

/-! ## `chunk_text` (src/utils.py, lines 61-64)

```python
def chunk_text(text: str, chunk_size: int = 3500) -> list:
    chunks = [text[i:i + chunk_size] for i in range(0, len(text), chunk_size)]
    return chunks
```

Fixed-size slicing by code points: chunk `i` is `text[i*size:(i+1)*size]`. -/

/-- `chunk_text text size` splits `text` into consecutive slices of
`size` code points each (the last slice may be shorter).  Mirrors the
Python list comprehension `[text[i:i+chunk_size] for i in range(0, len(text), chunk_size)]`. -/
def chunk_text (text : List Char) (size : Nat) : List (List Char) :=
  if _h : size = 0 ∨ text = [] then []
  else text.take size :: chunk_text (text.drop size) size
termination_by text.length
decreasing_by
  simp only [not_or] at _h
  have h1 : size ≠ 0 := _h.1
  have h2 : text ≠ [] := _h.2
  have : 0 < text.length := List.length_pos.mpr h2
  simp only [List.length_drop]
  omega

/-! ## `preprocess_text` (src/utils.py, lines 68-75)

```python
def preprocess_text(text: str) -> str:
    text = re.sub(r'\s+', ' ', text)
    text = text.strip()
    text = re.sub(r'[^\w\s]', '', text)
    return text
```
-/

/-- `re.sub(r'\s+', ' ', text)`: every maximal run of whitespace is
replaced by a single space (a whitespace character followed by more
whitespace is still inside its run and emits nothing; the run's last
whitespace character emits the single `' '`). -/
def collapse_ws : List Char → List Char
  | [] => []
  | [c] => if is_space_char c then [' '] else [c]
  | a :: b :: rest =>
    if is_space_char a then
      if is_space_char b then collapse_ws (b :: rest)
      else ' ' :: collapse_ws (b :: rest)
    else a :: collapse_ws (b :: rest)

/-- `str.strip()` from the left: drop leading whitespace. -/
def lstrip_ws (l : List Char) : List Char :=
  l.dropWhile is_space_char

/-- `str.strip()`: drop leading and trailing whitespace. -/
def strip_ws (l : List Char) : List Char :=
  ((lstrip_ws l).reverse.dropWhile is_space_char).reverse

/-- `re.sub(r'[^\w\s]', '', text)`: remove every character that is
neither a word character nor whitespace. -/
def remove_punct (l : List Char) : List Char :=
  l.filter (fun c => is_word_char c || is_space_char c)

/-- `preprocess_text` composes the three substitutions in the source's
order: collapse whitespace runs, strip, then delete punctuation. -/
def preprocess_text (l : List Char) : List Char :=
  remove_punct (strip_ws (collapse_ws l))

/-- Adjacent characters are not both whitespace (the shape of
`collapse_ws` output). -/
def no2sp (a b : Char) : Prop :=
  ¬(is_space_char a = true ∧ is_space_char b = true)

/-- The characters kept by `remove_punct`: word characters and
whitespace. -/
def keep_char (c : Char) : Bool :=
  is_word_char c || is_space_char c

/-! ## `llm_chat_chain` (src/utils.py, lines 13-28)

```python
def llm_chat_chain(query: str, context: str, history: str):
    template = """Answer the question based only on the following context and history: ..."""
    prompt = ChatPromptTemplate.from_template(template)
    chain = RunnableMap({...}) | prompt | Config.chat_client | output parsing
    response = chain.invoke({"question": query})
    return response
```

The chain substitutes `context`, `history` and `query` into the template
and invokes the chat backend exactly once on the resulting prompt; there
is no length check anywhere.  The backend (`Config.chat_client`) is a
function parameter; the second component of the result counts how many
times the backend was invoked. -/

/-- The prompt obtained by substituting the three values into the
template string of `llm_chat_chain`. -/
def assemble_prompt (context history question : String) : String :=
  "Answer the question based only on the following context and history:\n    Context : "
    ++ context ++ "\n    History : " ++ history ++ "\n\n    Question: " ++ question ++ "\n    "

/-- `llm_chat_chain`: build the prompt, invoke the backend once, return
its answer together with the number of backend invocations made. -/
def llm_chat_chain (backend : String → String) (query context history : String) :
    String × Nat :=
  (backend (assemble_prompt context history query), 1)

/-! ## The `/chat` websocket loop (src/app.py, lines 112-172)

Each websocket connection runs one handler coroutine holding a local
dictionary `history_data: Dict[str, str]`.  Per received message the
handler performs a similarity search, serializes the history, invokes
`llm_chat_chain`, stores `history_data[message] = response` and sends
the response.  Python dictionaries preserve insertion order; assignment
to an existing key updates the value in place without moving the key. -/

/-- Python `dict` assignment `hd[q] = a` on an insertion-ordered
association list: if the key is present its value is updated in place,
otherwise the pair is appended at the end. -/
def dict_set (hd : List (String × String)) (q a : String) : List (String × String) :=
  if q ∈ hd.map Prod.fst then hd.map (fun p => if p.1 = q then (q, a) else p)
  else hd ++ [(q, a)]

/-- `context += f"Context {count}: {res.page_content}\n\n"` over the
similarity-search results, with `count` starting at 1. -/
def build_context (docs : List String) : String :=
  String.join (docs.enum.map
    (fun p => "Context " ++ toString (p.1 + 1) ++ ": " ++ p.2 ++ "\n\n"))

/-- `history += f"({count})\nQuestion: {question}\nResponse: {response}\n\n"`
over the history dictionary items, with `count` starting at 1. -/
def build_history (hd : List (String × String)) : String :=
  String.join (hd.enum.map
    (fun p => "(" ++ toString (p.1 + 1) ++ ")\nQuestion: " ++ p.2.1
      ++ "\nResponse: " ++ p.2.2 ++ "\n\n"))

/-- Errors the retrieval backend can raise, per the spec's taxonomy
`RetrievalError{Invalid|Unavailable}`. -/
inductive RetrievalError : Type
  | unavailable : RetrievalError
  | invalid : RetrievalError
deriving DecidableEq

/-- One iteration of the `/chat` loop body (src/app.py, lines 145-170)
for a given outcome of the similarity search.  The search call
`Config.pinecone_vector_store_client.similarity_search(message, k=2)`
is not wrapped in any `try`, so a raised `RetrievalError` propagates out
of the turn: no completion is attempted and the history is untouched.
On success the turn returns the response and the updated history. -/
def chat_turn (backend : String → String)
    (retrieval : Except RetrievalError (List String))
    (hd : List (String × String)) (message : String) :
    Except RetrievalError (String × List (String × String)) :=
  match retrieval with
  | .error e => .error e
  | .ok results =>
    let context := build_context results
    let history := build_history hd
    let response := (llm_chat_chain backend message context history).1
    .ok (response, dict_set hd message response)

/-- The history update performed by one successful loop iteration, with
the retrieval and completion backends abstracted into a single function
`respond` from the message and the current history to the response. -/
def chat_step (respond : String → List (String × String) → String)
    (hd : List (String × String)) (msg : String) : List (String × String) :=
  dict_set hd msg (respond msg hd)

/-- The history dictionary after the handler has processed the given
messages in order, starting from the empty dictionary of line 140. -/
def chat_history (respond : String → List (String × String) → String)
    (msgs : List String) : List (String × String) :=
  msgs.foldl (chat_step respond) []

/-- The keys of the history dictionary in insertion order: each message
text appears once, at the position of its first occurrence. -/
def first_occurrences (msgs : List String) : List String :=
  msgs.foldl (fun acc m => if m ∈ acc then acc else acc ++ [m]) []

/-! ## Concurrent sessions (src/app.py, lines 112-172)

A "session" in the source is exactly one websocket connection: the
handler coroutine created for it owns the connection-local
`history_data` dictionary, and no session state is shared between
connections.  Messages of one connection are delivered by a single
`await websocket.receive_text()` in a sequential `while True` loop, so a
second message on the same connection waits in the socket queue until
the current iteration has finished.

We model this as a labelled transition system.  Each session holds its
queue of not-yet-received messages, an optional message currently being
processed (the single handler coroutine is either parked at
`receive_text` — `none` — or somewhere inside the loop body — `some m`;
one coroutine has one program counter, so an `Option` is faithful), and
its history dictionary.  The asyncio scheduler is modelled as an
arbitrary list of actions, each either starting (receiving) or
finishing (recording and answering) a message of some session; actions
whose guard is not enabled leave the state unchanged. -/

/-- The state of one chat session (one websocket connection). -/
structure Sess : Type where
  pending : List String
  processing : Option String
  hist : List (String × String)
deriving DecidableEq

/-- A scheduler action: session `sid` receives its next queued message,
or session `sid` finishes its current message (updating the history and
sending the response). -/
inductive Act : Type
  | start : Nat → Act
  | finish : Nat → Act
deriving DecidableEq

/-- `await websocket.receive_text()` returns: the handler picks up the
next queued message.  Enabled only when the coroutine is parked at the
`receive` (no message mid-processing) and a message is queued. -/
def sess_start (s : Sess) : Sess :=
  match s.processing, s.pending with
  | none, m :: rest => { pending := rest, processing := some m, hist := s.hist }
  | _, _ => s

/-- The loop body completes for the current message: the history is
updated by `history_data[message] = response` and the coroutine returns
to the `receive`. -/
def sess_finish (respond : String → List (String × String) → String) (s : Sess) : Sess :=
  match s.processing with
  | some m => { pending := s.pending, processing := none, hist := chat_step respond s.hist m }
  | none => s

/-- Execute one scheduler action on the global state (one `Sess` per
session identifier).  Sessions other than the acting one are untouched:
`history_data` is a local variable of the handler coroutine. -/
def exec_act (respond : String → List (String × String) → String)
    (σ : Nat → Sess) (a : Act) : Nat → Sess :=
  match a with
  | .start sid => Function.update σ sid (sess_start (σ sid))
  | .finish sid => Function.update σ sid (sess_finish respond (σ sid))

/-- Run a whole schedule (an arbitrary interleaving of the sessions'
steps) from a global state. -/
def run_sched (respond : String → List (String × String) → String)
    (acts : List Act) (σ : Nat → Sess) : Nat → Sess :=
  acts.foldl (exec_act respond) σ

/-- The initial global state: session `sid` will be sent the messages
`msgs sid`, none received yet, history empty. -/
def init_state (msgs : Nat → List String) : Nat → Sess :=
  fun sid => { pending := msgs sid, processing := none, hist := [] }

/-- Per-session serialization invariant: some FIFO prefix of the
session's messages has been fully processed and is reflected in the
history exactly as the purely sequential loop would have left it; at
most one further message is mid-processing, and it is the next one in
arrival order; the rest are still queued in order. -/
def sess_inv (respond : String → List (String × String) → String)
    (msgs : List String) (s : Sess) : Prop :=
  ∃ k, s.hist = chat_history respond (msgs.take k) ∧
    s.processing.toList ++ s.pending = msgs.drop k

/-! ## UTF-8 (src/utils.py, lines 55-57)

```python
def extract_txt_text(txt_file: bytes) -> str:
    text = txt_file.decode("utf-8")
    return text
```

`bytes.decode("utf-8")` with the default strict handler accepts exactly
well-formed UTF-8: 1- to 4-byte sequences, continuation bytes in
`[0x80, 0xBF]`, no overlong encodings, no surrogate code points, and
nothing above `U+10FFFF`; anything else raises `UnicodeDecodeError`.
We embed the decoder (`utf8_decode`) and, as the independent notion of
validity, the standard UTF-8 encoder (`utf8_encode`): a byte string is
valid UTF-8 exactly when it is the encoding of some sequence of Unicode
scalar values. -/

/-- The UTF-8 encoding of one Unicode scalar value. -/
def encode_char (c : Char) : List Nat :=
  let n := c.toNat
  if n < 128 then [n]
  else if n < 2048 then [192 + n / 64, 128 + n % 64]
  else if n < 65536 then [224 + n / 4096, 128 + (n / 64) % 64, 128 + n % 64]
  else [240 + n / 262144, 128 + (n / 4096) % 64, 128 + (n / 64) % 64, 128 + n % 64]

/-- The UTF-8 encoding of a sequence of Unicode scalar values. -/
def utf8_encode (s : List Char) : List Nat :=
  (s.map encode_char).flatten

/-- Decode a 2-byte sequence `b0 b1` with lead `b0` in `[0xC2, 0xDF]`:
the continuation byte must lie in `[0x80, 0xBF]`.  (Leads `0xC0`/`0xC1`
— the overlong 2-byte forms — are rejected before this is called.) -/
def dec2 (b0 b1 : Nat) : Option Nat :=
  if 128 ≤ b1 ∧ b1 < 192 then some ((b0 - 192) * 64 + (b1 - 128)) else none

/-- Decode a 3-byte sequence `b0 b1 b2` with lead `b0` in
`[0xE0, 0xEF]`: continuation bytes in `[0x80, 0xBF]`, no overlong form
(`0xE0` requires `b1 ≥ 0xA0`) and no surrogate (`0xED` requires
`b1 < 0xA0`). -/
def dec3 (b0 b1 b2 : Nat) : Option Nat :=
  if (128 ≤ b1 ∧ b1 < 192) ∧ ¬(b0 = 224 ∧ b1 < 160) ∧ ¬(b0 = 237 ∧ 160 ≤ b1) ∧
      (128 ≤ b2 ∧ b2 < 192) then
    some ((b0 - 224) * 4096 + (b1 - 128) * 64 + (b2 - 128))
  else none

/-- Decode a 4-byte sequence `b0 b1 b2 b3` with lead `b0` in
`[0xF0, 0xF4]`: continuation bytes in `[0x80, 0xBF]`, no overlong form
(`0xF0` requires `b1 ≥ 0x90`) and nothing above `U+10FFFF` (`0xF4`
requires `b1 < 0x90`). -/
def dec4 (b0 b1 b2 b3 : Nat) : Option Nat :=
  if (128 ≤ b1 ∧ b1 < 192) ∧ ¬(b0 = 240 ∧ b1 < 144) ∧ ¬(b0 = 244 ∧ 144 ≤ b1) ∧
      (128 ≤ b2 ∧ b2 < 192) ∧ (128 ≤ b3 ∧ b3 < 192) then
    some ((b0 - 240) * 262144 + (b1 - 128) * 4096 + (b2 - 128) * 64 + (b3 - 128))
  else none

/-- Strict UTF-8 decoding, driven by a fuel counter.  Each decoded
character consumes at least one byte, so fuel equal to the byte count
is always sufficient; the fuel-exhausted case is unreachable from
`utf8_decode` and exists only to make the recursion structural.
Returns `none` exactly where CPython's strict `bytes.decode("utf-8")`
raises `UnicodeDecodeError`: stray continuation bytes (leads in
`[0x80, 0xC1]`, covering the overlong 2-byte leads `0xC0`/`0xC1`),
truncated sequences, leads above `0xF4`, and the malformed
continuations rejected by `dec2`/`dec3`/`dec4`. -/
def utf8_decode_go : Nat → List Nat → Option (List Char)
  | _, [] => some []
  | 0, _ :: _ => none
  | fuel + 1, b0 :: rest =>
    if b0 < 128 then (utf8_decode_go fuel rest).map (fun s => Char.ofNat b0 :: s)
    else if b0 < 194 then none
    else if b0 < 224 then
      match rest with
      | b1 :: rest2 =>
        match dec2 b0 b1 with
        | some n => (utf8_decode_go fuel rest2).map (fun s => Char.ofNat n :: s)
        | none => none
      | [] => none
    else if b0 < 240 then
      match rest with
      | b1 :: b2 :: rest3 =>
        match dec3 b0 b1 b2 with
        | some n => (utf8_decode_go fuel rest3).map (fun s => Char.ofNat n :: s)
        | none => none
      | _ => none
    else if b0 < 245 then
      match rest with
      | b1 :: b2 :: b3 :: rest4 =>
        match dec4 b0 b1 b2 b3 with
        | some n => (utf8_decode_go fuel rest4).map (fun s => Char.ofNat n :: s)
        | none => none
      | _ => none
    else none

/-- Strict UTF-8 decoding of a byte string (each byte a `Nat`; values
outside `[0, 255]` never satisfy any branch), as performed by
`bytes.decode("utf-8")`. -/
def utf8_decode (bs : List Nat) : Option (List Char) :=
  utf8_decode_go bs.length bs

/-! ## The `/upload` endpoint (src/app.py, lines 55-105)

The handler reads the payload, dispatches on the filename extension
(`.pdf`, `.docx`, `.txt`, otherwise HTTP 400 "Unsupported file type"
before anything else happens), preprocesses the extracted text, chunks
it with the default `chunk_size=3500` and stores the chunks in
Pinecone.  The two external extractors (PyMuPDF, python-docx) are
function parameters; the stored documents are returned in place of the
backend's acknowledgement. -/

/-- Errors of the upload path: the HTTP 400 "Unsupported file type" of
src/app.py line 80, the `UnicodeDecodeError` of a non-UTF-8 `.txt`
payload, and any failure raised by an external extractor. -/
inductive UploadError : Type
  | unsupportedFileType : UploadError
  | decodeError : UploadError
  | extractionFailed : UploadError
deriving DecidableEq

/-- `extract_txt_text` (src/utils.py, lines 55-57): strict UTF-8
decoding of the payload; invalid bytes raise `UnicodeDecodeError`. -/
def extract_txt_text (content : List Nat) : Except UploadError (List Char) :=
  match utf8_decode content with
  | some s => Except.ok s
  | none => Except.error UploadError.decodeError

/-- The extension dispatch of `upload_file` (src/app.py, lines 73-80):
`.pdf` and `.docx` delegate to the external extractors, `.txt` decodes
as UTF-8, anything else fails with "Unsupported file type" without
touching the payload. -/
def extract_text (extractPdf extractDocx : List Nat → Except UploadError (List Char))
    (filename : List Char) (content : List Nat) : Except UploadError (List Char) :=
  if (".pdf".toList).isSuffixOf filename then extractPdf content
  else if (".docx".toList).isSuffixOf filename then extractDocx content
  else if (".txt".toList).isSuffixOf filename then extract_txt_text content
  else Except.error UploadError.unsupportedFileType

/-- The `/upload` pipeline (src/app.py, lines 55-105): extract, then
`preprocess_text`, then `chunk_text` with the default size 3500, then
store; the stored chunks are returned. -/
def upload_file (extractPdf extractDocx : List Nat → Except UploadError (List Char))
    (filename : List Char) (content : List Nat) :
    Except UploadError (List (List Char)) :=
  match extract_text extractPdf extractDocx filename content with
  | Except.error e => Except.error e
  | Except.ok text => Except.ok (chunk_text (preprocess_text text) 3500)

/-! ## Sentence boundaries (spec §4.1)

The spec's Chunker contract speaks of sentence ends — `.`, `?`, `!`
followed by whitespace — in the last 10% of a chunk window.  These
predicates formalize that wording so the contract can be compared with
`chunk_text`. -/

/-- A sentence-ending punctuation character, per spec §4.1. -/
def is_sentence_end (c : Char) : Bool :=
  c = '.' || c = '?' || c = '!'

/-- A sentence end at position `i` of `t`: a sentence-ending character
there, immediately followed by whitespace. -/
def sentence_end_at (t : List Char) (i : Nat) : Bool :=
  match (t.drop i).take 2 with
  | [c, w] => is_sentence_end c && is_space_char w
  | _ => false

/-- A sentence end somewhere in the last 10% of the first chunk window
`[0, size)` of `t`, i.e. at a position `i` with `size - size / 10 ≤ i < size`. -/
def boundary_in_last_tenth (t : List Char) (size : Nat) : Bool :=
  ((List.range size).filter (fun i => size - size / 10 ≤ i)).any
    (fun i => sentence_end_at t i)

/-- The cut at position `p` of `t` falls immediately after a sentence
end and its following whitespace (so the cut does not interrupt a
sentence). -/
def split_at_sentence_boundary (t : List Char) (p : Nat) : Bool :=
  2 ≤ p && sentence_end_at t (p - 2)

/-! ## Basic equations for `chunk_text` -/

theorem chunk_text_nil (size : Nat) : chunk_text [] size = [] := by
  rw [chunk_text]
  simp

theorem chunk_text_cons {t : List Char} {size : Nat} (hs : size ≠ 0) (ht : t ≠ []) :
    chunk_text t size = t.take size :: chunk_text (t.drop size) size := by
  rw [chunk_text]
  simp [hs, ht]

/-- Concatenating the chunks recovers the input text. -/
theorem chunk_text_flatten (size : Nat) (hs : 0 < size) (t : List Char) :
    (chunk_text t size).flatten = t := by
  by_cases ht : t = []
  · subst ht
    rw [chunk_text_nil]
    rfl
  · rw [chunk_text_cons (Nat.pos_iff_ne_zero.mp hs) ht]
    rw [List.flatten_cons, chunk_text_flatten size hs (t.drop size)]
    exact List.take_append_drop size t
termination_by t.length
decreasing_by
  have : 0 < t.length := List.length_pos.mpr ht
  simp only [List.length_drop]
  omega

/-- C5: Chunking is idempotent on boundaries: for every input text and
fixed positive chunk size, re-chunking the concatenation of all chunks
produced by a prior run of `chunk_text` yields exactly the same chunk
sequence as that prior run. -/
theorem chunk_rechunk_idempotent (size : Nat) (hs : 0 < size) (t : List Char) :
    chunk_text ((chunk_text t size).flatten) size = chunk_text t size := by
  rw [chunk_text_flatten size hs t]

/-- Witness for `chunk_rechunk_idempotent` at chunk size 4 on a
concrete 11-character text. -/
theorem chunk_rechunk_idempotent_witness :
    0 < 4 ∧
      chunk_text ((chunk_text "hello world".toList 4).flatten) 4 =
        chunk_text "hello world".toList 4 :=
  ⟨by decide, chunk_rechunk_idempotent 4 (by decide) "hello world".toList⟩

/-- C4 (amended): `chunk_text` pays no attention to sentence
boundaries: chunk `i` is always exactly the slice
`text[i*size : (i+1)*size]`, whatever the text's punctuation. -/
theorem chunk_text_fixed_slices (size : Nat) (hs : 0 < size) (t : List Char) (i : Nat) :
    (chunk_text t size).getD i [] = (t.drop (i * size)).take size := by
  by_cases ht : t = []
  · subst ht
    rw [chunk_text_nil]
    simp
  · rw [chunk_text_cons (Nat.pos_iff_ne_zero.mp hs) ht]
    match i with
    | 0 => simp
    | i + 1 =>
      show (chunk_text (t.drop size) size).getD i [] = _
      rw [chunk_text_fixed_slices size hs (t.drop size) i]
      rw [List.drop_drop]
      congr 2
      ring
termination_by t.length
decreasing_by
  have : 0 < t.length := List.length_pos.mpr ht
  simp only [List.length_drop]
  omega

/-- Witness for `chunk_text_fixed_slices`: the second chunk of a
concrete text at size 4. -/
theorem chunk_text_fixed_slices_witness :
    0 < 4 ∧
      (chunk_text "hello world".toList 4).getD 1 [] =
        ("hello world".toList.drop (1 * 4)).take 4 :=
  ⟨by decide, chunk_text_fixed_slices 4 (by decide) "hello world".toList 1⟩

/-- The concrete text refuting C4: 94 letters, a sentence end `". "` at
positions 94-95, then a second sentence. -/
def boundary_cex_text : List Char :=
  List.replicate 94 'a' ++ ('.' :: ' ' :: "Bcdefghij".toList)

/-- C4 (counterexample): with `maxChunkSize = 100` a sentence end lies
within the last 10% of the first chunk window (position 94 ≥ 90), more
text follows the window, and yet `chunk_text` splits at exactly 100 —
four characters into the word "Bcdefghij" of the second sentence, not
at a sentence boundary. -/
theorem chunk_splits_inside_sentence_cex :
    boundary_in_last_tenth boundary_cex_text 100 = true ∧
      100 < boundary_cex_text.length ∧
      chunk_text boundary_cex_text 100 =
        [boundary_cex_text.take 100, boundary_cex_text.drop 100] ∧
      split_at_sentence_boundary boundary_cex_text 100 = false ∧
      (boundary_cex_text.drop 96).take 9 = "Bcdefghij".toList := by
  refine ⟨by decide, by decide, ?_, by decide, by decide⟩
  rw [chunk_text_cons (by decide) (by decide)]
  rw [chunk_text_cons (by decide) (by decide)]
  rw [show (boundary_cex_text.drop 100).drop 100 = [] from by decide]
  rw [chunk_text_nil]
  rw [show (boundary_cex_text.drop 100).take 100 = boundary_cex_text.drop 100 from by decide]

/-! ## History dictionary lemmas -/

/-- `dict_set` on the keys: an existing key stays where it is, a new
key is appended at the end. -/
theorem dict_set_keys (hd : List (String × String)) (q a : String) :
    (dict_set hd q a).map Prod.fst =
      if q ∈ hd.map Prod.fst then hd.map Prod.fst else hd.map Prod.fst ++ [q] := by
  unfold dict_set
  by_cases h : q ∈ hd.map Prod.fst
  · rw [if_pos h, if_pos h, List.map_map]
    apply List.map_congr_left
    intro p _
    by_cases hp : p.1 = q
    · simp [hp]
    · simp [hp]
  · rw [if_neg h, if_neg h, List.map_append]
    rfl

theorem chat_history_keys_aux (f : String → List (String × String) → String)
    (msgs : List String) :
    ∀ hd : List (String × String),
      (List.foldl (chat_step f) hd msgs).map Prod.fst =
        List.foldl (fun acc m => if m ∈ acc then acc else acc ++ [m]) (hd.map Prod.fst) msgs := by
  induction msgs with
  | nil => intro hd; rfl
  | cons m rest ih =>
    intro hd
    simp only [List.foldl_cons]
    rw [ih (chat_step f hd m)]
    congr 1
    exact dict_set_keys hd m (f m hd)

/-- C1 (amended): the chat history is keyed by message text: after any
sequence of completed turns its keys are exactly the distinct message
texts in order of first arrival, whatever the backends answer.  In
particular its length is the number of distinct messages sent — no
maximum is enforced and no turn is ever evicted. -/
theorem chat_history_keys_first_occurrences
    (f : String → List (String × String) → String) (msgs : List String) :
    (chat_history f msgs).map Prod.fst = first_occurrences msgs :=
  chat_history_keys_aux f msgs []

/-- C1 (counterexample): after two turns with distinct messages the
stored history has 2 entries, exceeding a configured maximum of 1 turn;
nothing was evicted. -/
theorem chat_history_exceeds_bound_cex :
    ¬ ((chat_history (fun m _ => m) ["a", "b"]).length ≤ 1) := by
  decide

/-- C3 (amended): when the similarity search raises, the error
propagates out of the turn unchanged: no completion response is
produced and no turn is recorded (the result carries no history). -/
theorem retrieval_error_propagates (backend : String → String) (e : RetrievalError)
    (hd : List (String × String)) (message : String) :
    chat_turn backend (Except.error e) hd message = Except.error e :=
  rfl

/-- C3 (counterexample): a turn whose retrieval fails with
`Unavailable` yields no completion response and records nothing — the
whole turn fails, instead of degrading to empty context. -/
theorem retrieval_error_fails_turn_cex :
    chat_turn (fun _ => "a reply") (Except.error RetrievalError.unavailable) [] "hi" =
      Except.error RetrievalError.unavailable :=
  rfl

/-- C6 (amended): `llm_chat_chain` enforces no maximum prompt length:
even when the assembled prompt is longer than any given bound, the
backend is still invoked exactly once on it and its answer returned —
no `PromptTooLarge` failure exists. -/
theorem llm_chain_no_length_check (backend : String → String) (q c h : String)
    (maxLen : Nat) (_hlen : maxLen < (assemble_prompt c h q).length) :
    llm_chat_chain backend q c h = (backend (assemble_prompt c h q), 1) :=
  rfl

set_option maxRecDepth 10000 in
/-- Witness for `llm_chain_no_length_check` with a configured maximum
prompt length of 0, which every nonempty prompt exceeds. -/
theorem llm_chain_no_length_check_witness :
    llm_chat_chain (fun _ => "ok") "q" "c" "h" =
      ((fun _ => "ok") (assemble_prompt "c" "h" "q"), 1) :=
  llm_chain_no_length_check (fun _ => "ok") "q" "c" "h" 0 (by decide)

set_option maxRecDepth 10000 in
/-- C6 (counterexample): with a configured maximum prompt length of 0
(exceeded by the assembled prompt, which is more than 80 characters
long), the backend is nevertheless called — the call count is 1, not 0
— and its answer is returned with no error. -/
theorem oversized_prompt_still_calls_backend_cex :
    80 < (assemble_prompt "c" "h" "q").length ∧
      (llm_chat_chain (fun _ => "ok") "q" "c" "h").2 = 1 ∧
      (llm_chat_chain (fun _ => "ok") "q" "c" "h").1 = "ok" := by
  refine ⟨by decide, rfl, rfl⟩

/-- Replacing the value stored under a present key: `lookup` then finds
the new value. -/
theorem lookup_map_replace (q a : String) :
    ∀ hd : List (String × String), q ∈ hd.map Prod.fst →
      (hd.map (fun p => if p.1 = q then (q, a) else p)).lookup q = some a := by
  intro hd
  induction hd with
  | nil => intro h; simp at h
  | cons p rest ih =>
    obtain ⟨k, v⟩ := p
    intro hmem
    simp only [List.map_cons]
    by_cases hk : k = q
    · subst hk
      rw [if_pos rfl]
      simp [List.lookup]
    · rw [if_neg (by simpa using hk)]
      have hqk : (q == k) = false := by simpa using Ne.symm hk
      simp only [List.lookup, hqk]
      apply ih
      simp only [List.map_cons, List.mem_cons] at hmem
      rcases hmem with h | h
      · exact absurd h.symm hk
      · exact h

/-- C8: sending a message whose text equals an earlier message of the
same session overwrites the stored answer in place: the history length
does not increase, and the entry for that text now holds the newest
response. -/
theorem duplicate_message_overwrites (f : String → List (String × String) → String)
    (hd : List (String × String)) (msg : String) (hmem : msg ∈ hd.map Prod.fst) :
    (chat_step f hd msg).length = hd.length ∧
      (chat_step f hd msg).lookup msg = some (f msg hd) := by
  constructor
  · unfold chat_step dict_set
    rw [if_pos hmem, List.length_map]
  · unfold chat_step dict_set
    rw [if_pos hmem]
    exact lookup_map_replace msg (f msg hd) hd hmem

/-- Witness for `duplicate_message_overwrites`: a second occurrence of
message "x" leaves the one-entry history at length one, now holding the
new answer. -/
theorem duplicate_message_overwrites_witness :
    (chat_step (fun _ _ => "new") [("x", "old")] "x").length = [(("x" : String), ("old" : String))].length ∧
      (chat_step (fun _ _ => "new") [("x", "old")] "x").lookup "x" =
        some ((fun (_ : String) (_ : List (String × String)) => "new") "x" [("x", "old")]) :=
  duplicate_message_overwrites (fun _ _ => "new") [("x", "old")] "x" (by decide)

/-! ## Per-session serialization under arbitrary interleaving -/

/-- Receiving the next queued message preserves the serialization
invariant. -/
theorem sess_start_inv (f : String → List (String × String) → String)
    (msgs : List String) (s : Sess) (h : sess_inv f msgs s) :
    sess_inv f msgs (sess_start s) := by
  obtain ⟨pend, proc, hist⟩ := s
  obtain ⟨k, hh, hp⟩ := h
  dsimp only at hh hp
  cases proc with
  | some m => exact ⟨k, hh, hp⟩
  | none =>
    cases pend with
    | nil => exact ⟨k, hh, hp⟩
    | cons m rest =>
      refine ⟨k, hh, ?_⟩
      simpa using hp

/-- Completing the current message preserves the serialization
invariant: the finished message becomes the next element of the
processed prefix. -/
theorem sess_finish_inv (f : String → List (String × String) → String)
    (msgs : List String) (s : Sess) (h : sess_inv f msgs s) :
    sess_inv f msgs (sess_finish f s) := by
  obtain ⟨pend, proc, hist⟩ := s
  obtain ⟨k, hh, hp⟩ := h
  dsimp only at hh hp
  cases proc with
  | none => exact ⟨k, hh, hp⟩
  | some m =>
    have hm : msgs.drop k = m :: pend := by
      rw [← hp]
      rfl
    have hget : msgs[k]? = some m := by
      rw [← List.head?_drop, hm]
      simp
    have hdk : msgs.drop (k + 1) = pend := by
      rw [← List.tail_drop, hm]
      simp
    refine ⟨k + 1, ?_, ?_⟩
    · show chat_step f hist m = chat_history f (msgs.take (k + 1))
      rw [List.take_succ, hget]
      show _ = chat_history f (msgs.take k ++ [m])
      unfold chat_history
      rw [List.foldl_append]
      show chat_step f hist m = chat_step f (chat_history f (msgs.take k)) m
      rw [hh]
    · show ([] : List String) ++ pend = msgs.drop (k + 1)
      simp [hdk]

/-- The serialization invariant of every session is preserved by every
schedule. -/
theorem run_sched_inv (f : String → List (String × String) → String)
    (msgs : Nat → List String) (acts : List Act) :
    ∀ σ : Nat → Sess, (∀ i, sess_inv f (msgs i) (σ i)) →
      ∀ i, sess_inv f (msgs i) (run_sched f acts σ i) := by
  induction acts with
  | nil => intro σ h i; exact h i
  | cons a rest ih =>
    intro σ h i
    show sess_inv f (msgs i) (run_sched f rest (exec_act f σ a) i)
    apply ih
    intro j
    cases a with
    | start sid =>
      simp only [exec_act]
      by_cases hj : j = sid
      · subst hj
        rw [Function.update_same]
        exact sess_start_inv f (msgs j) (σ j) (h j)
      · rw [Function.update_noteq hj]
        exact h j
    | finish sid =>
      simp only [exec_act]
      by_cases hj : j = sid
      · subst hj
        rw [Function.update_same]
        exact sess_finish_inv f (msgs j) (σ j) (h j)
      · rw [Function.update_noteq hj]
        exact h j

/-- C2: under every interleaving of the scheduler across any number of
concurrent sessions, each session processes at most one request at a
time (`processing` is the single handler coroutine's program counter),
further messages wait in the socket queue in arrival order, and the
recorded history is always exactly the sequential chat over the FIFO
prefix of that session's own messages — turns of one session are never
interleaved. -/
theorem session_requests_serialized (f : String → List (String × String) → String)
    (msgs : Nat → List String) (acts : List Act) (sid : Nat) :
    sess_inv f (msgs sid) (run_sched f acts (init_state msgs) sid) := by
  apply run_sched_inv f msgs acts (init_state msgs) _ sid
  intro i
  exact ⟨0, rfl, rfl⟩

/-! ## The upload dispatch -/

/-- Turn an `isSuffixOf = false` fact into the negated condition used
by the dispatch. -/
theorem isSuffixOf_false_not_true {s fname : List Char}
    (h : s.isSuffixOf fname = false) : ¬ (s.isSuffixOf fname = true) := by
  simp [h]

/-- Two suffix candidates that are not suffixes of one another cannot
both be suffixes of the same filename. -/
theorem isSuffixOf_excl {s1 s2 fname : List Char} (h1 : s1.isSuffixOf fname = true)
    (h12 : ¬ s1 <:+ s2) (h21 : ¬ s2 <:+ s1) : s2.isSuffixOf fname = false := by
  rw [Bool.eq_false_iff]
  intro h2
  rw [List.isSuffixOf_iff_suffix] at h1 h2
  rcases List.suffix_or_suffix_of_suffix h2 h1 with h | h
  · exact h21 h
  · exact h12 h

/-- C7: the `/upload` dispatch on the filename extension: an
unrecognized extension fails with "Unsupported file type" whatever the
payload and whatever the external extractors would return (the result
does not depend on them, so neither extraction nor chunking nor storage
happens), while each recognized extension delegates extraction to its
matching extractor. -/
theorem upload_dispatch (pdfEx docxEx : List Nat → Except UploadError (List Char))
    (fname : List Char) (content : List Nat) :
    (".pdf".toList.isSuffixOf fname = false → ".docx".toList.isSuffixOf fname = false →
      ".txt".toList.isSuffixOf fname = false →
      upload_file pdfEx docxEx fname content = Except.error UploadError.unsupportedFileType) ∧
      (".pdf".toList.isSuffixOf fname = true →
        extract_text pdfEx docxEx fname content = pdfEx content) ∧
      (".docx".toList.isSuffixOf fname = true →
        extract_text pdfEx docxEx fname content = docxEx content) ∧
      (".txt".toList.isSuffixOf fname = true →
        extract_text pdfEx docxEx fname content = extract_txt_text content) := by
  refine ⟨?_, ?_, ?_, ?_⟩
  · intro h1 h2 h3
    unfold upload_file extract_text
    rw [if_neg (isSuffixOf_false_not_true h1), if_neg (isSuffixOf_false_not_true h2),
      if_neg (isSuffixOf_false_not_true h3)]
  · intro h
    unfold extract_text
    rw [if_pos h]
  · intro h
    have hpdf : ".pdf".toList.isSuffixOf fname = false :=
      isSuffixOf_excl h (by decide) (by decide)
    unfold extract_text
    rw [if_neg (isSuffixOf_false_not_true hpdf), if_pos h]
  · intro h
    have hpdf : ".pdf".toList.isSuffixOf fname = false :=
      isSuffixOf_excl h (by decide) (by decide)
    have hdocx : ".docx".toList.isSuffixOf fname = false :=
      isSuffixOf_excl h (by decide) (by decide)
    unfold extract_text
    rw [if_neg (isSuffixOf_false_not_true hpdf), if_neg (isSuffixOf_false_not_true hdocx),
      if_pos h]

/-- Witness for `upload_dispatch`: a `.zip` upload is rejected as
unsupported; a `.docx` upload is delegated to the DOCX extractor. -/
theorem upload_dispatch_witness :
    upload_file (fun _ => Except.ok ['p']) (fun _ => Except.ok ['d']) "a.zip".toList [0] =
      Except.error UploadError.unsupportedFileType ∧
      extract_text (fun _ => Except.ok ['p']) (fun _ => Except.ok ['d']) "a.docx".toList [0] =
        (fun _ => Except.ok ['d']) [0] :=
  ⟨(upload_dispatch _ _ "a.zip".toList [0]).1 (by decide) (by decide) (by decide),
   (upload_dispatch _ _ "a.docx".toList [0]).2.2.1 (by decide)⟩

/-! ## `preprocess_text` normalization lemmas -/

/-- Every character of `collapse_ws l` is a space or comes from `l`. -/
theorem mem_collapse_ws (l : List Char) : ∀ c ∈ collapse_ws l, c = ' ' ∨ c ∈ l := by
  induction l using collapse_ws.induct with
  | case1 => simp [collapse_ws]
  | case2 d hd =>
    intro c hc
    simp [collapse_ws, hd] at hc
    exact Or.inl hc
  | case3 d hd =>
    intro c hc
    simp [collapse_ws, hd] at hc
    exact Or.inr (by simp [hc])
  | case4 a b rest ha hb ih =>
    intro c hc
    simp only [collapse_ws, if_pos ha, if_pos hb] at hc
    rcases ih c hc with h | h
    · exact Or.inl h
    · exact Or.inr (List.mem_cons_of_mem a h)
  | case5 a b rest ha hb ih =>
    intro c hc
    simp only [collapse_ws, if_pos ha, if_neg hb, List.mem_cons] at hc
    rcases hc with h | h
    · exact Or.inl h
    · rcases ih c h with h2 | h2
      · exact Or.inl h2
      · exact Or.inr (List.mem_cons_of_mem a h2)
  | case6 a b rest ha ih =>
    intro c hc
    simp only [collapse_ws, if_neg ha, List.mem_cons] at hc
    rcases hc with h | h
    · exact Or.inr (List.mem_cons.mpr (Or.inl h))
    · rcases ih c h with h2 | h2
      · exact Or.inl h2
      · exact Or.inr (List.mem_cons_of_mem a h2)

/-- Every whitespace character surviving `collapse_ws` is the plain
space `' '`. -/
theorem spaces_collapse_ws (l : List Char) :
    ∀ c ∈ collapse_ws l, is_space_char c = true → c = ' ' := by
  induction l using collapse_ws.induct with
  | case1 => simp [collapse_ws]
  | case2 d hd =>
    intro c hc hs
    simp [collapse_ws, hd] at hc
    exact hc
  | case3 d hd =>
    intro c hc hs
    simp [collapse_ws, hd] at hc
    rw [hc] at hs
    exact absurd hs hd
  | case4 a b rest ha hb ih =>
    intro c hc hs
    simp only [collapse_ws, if_pos ha, if_pos hb] at hc
    exact ih c hc hs
  | case5 a b rest ha hb ih =>
    intro c hc hs
    simp only [collapse_ws, if_pos ha, if_neg hb, List.mem_cons] at hc
    rcases hc with h | h
    · exact h
    · exact ih c h hs
  | case6 a b rest ha ih =>
    intro c hc hs
    simp only [collapse_ws, if_neg ha, List.mem_cons] at hc
    rcases hc with h | h
    · rw [h] at hs
      exact absurd hs ha
    · exact ih c h hs

/-- `collapse_ws` keeps a non-whitespace head. -/
theorem head?_collapse_ws (b : Char) (rest : List Char) (hb : ¬ is_space_char b = true) :
    (collapse_ws (b :: rest)).head? = some b := by
  cases rest with
  | nil => simp [collapse_ws, hb]
  | cons c rest2 => simp [collapse_ws, hb]

/-- `collapse_ws` never leaves two adjacent whitespace characters. -/
theorem chain'_collapse_ws (l : List Char) : List.Chain' no2sp (collapse_ws l) := by
  induction l using collapse_ws.induct with
  | case1 => simp [collapse_ws]
  | case2 d hd => simp [collapse_ws, hd]
  | case3 d hd => simp [collapse_ws, hd]
  | case4 a b rest ha hb ih =>
    simpa only [collapse_ws, if_pos ha, if_pos hb] using ih
  | case5 a b rest ha hb ih =>
    simp only [collapse_ws, if_pos ha, if_neg hb]
    rw [List.chain'_cons']
    refine ⟨?_, ih⟩
    intro y hy
    rw [head?_collapse_ws b rest hb] at hy
    simp at hy
    subst hy
    intro hcon
    exact hb hcon.2
  | case6 a b rest ha ih =>
    simp only [collapse_ws, if_neg ha]
    rw [List.chain'_cons']
    refine ⟨?_, ih⟩
    intro y hy
    intro hcon
    exact ha hcon.1

/-- A list whose whitespace is all `' '` with no two adjacent
whitespace characters is a fixpoint of `collapse_ws`. -/
theorem collapse_ws_eq_self (l : List Char)
    (hsp : ∀ c ∈ l, is_space_char c = true → c = ' ')
    (hch : List.Chain' no2sp l) : collapse_ws l = l := by
  induction l using collapse_ws.induct with
  | case1 => rfl
  | case2 d hd =>
    simp [collapse_ws, hd]
    exact (hsp d (by simp) hd).symm
  | case3 d hd => simp [collapse_ws, hd]
  | case4 a b rest ha hb ih =>
    exfalso
    rw [List.chain'_cons] at hch
    exact hch.1 ⟨ha, hb⟩
  | case5 a b rest ha hb ih =>
    simp only [collapse_ws, if_pos ha, if_neg hb]
    rw [List.chain'_cons] at hch
    rw [ih (fun c hc hs => hsp c (List.mem_cons_of_mem a hc) hs) hch.2]
    rw [hsp a (by simp) ha]
  | case6 a b rest ha ih =>
    simp only [collapse_ws, if_neg ha]
    rw [List.chain'_cons] at hch
    rw [ih (fun c hc hs => hsp c (List.mem_cons_of_mem a hc) hs) hch.2]

/-- The head of `dropWhile p` does not satisfy `p`. -/
theorem head?_dropWhile_false (p : Char → Bool) (l : List Char) (c : Char)
    (h : (l.dropWhile p).head? = some c) : p c = false := by
  induction l with
  | nil => simp at h
  | cons a rest ih =>
    rw [List.dropWhile_cons] at h
    by_cases hp : p a
    · rw [if_pos hp] at h
      exact ih h
    · rw [if_neg hp] at h
      simp at h
      subst h
      simpa using hp

/-- `dropWhile p` is the identity when the head does not satisfy
`p`. -/
theorem dropWhile_eq_self_of_head? (p : Char → Bool) (l : List Char)
    (h : ∀ c, l.head? = some c → p c = false) : l.dropWhile p = l := by
  cases l with
  | nil => rfl
  | cons a rest =>
    rw [List.dropWhile_cons, if_neg]
    simp [h a rfl]

/-- `strip_ws` returns a contiguous segment of its input. -/
theorem strip_ws_segment (l : List Char) : strip_ws l <:+: l := by
  have h1 : lstrip_ws l <:+ l := List.dropWhile_suffix is_space_char
  have h2 : (lstrip_ws l).reverse.dropWhile is_space_char <:+ (lstrip_ws l).reverse :=
    List.dropWhile_suffix is_space_char
  have h3 : strip_ws l <+: lstrip_ws l := by
    rw [← List.reverse_suffix]
    unfold strip_ws
    rw [List.reverse_reverse]
    exact h2
  exact h3.isInfix.trans h1.isInfix

/-- A list with non-whitespace head and last character is a fixpoint
of `strip_ws`. -/
theorem strip_ws_eq_self (l : List Char)
    (hh : ∀ c, l.head? = some c → is_space_char c = false)
    (hl : ∀ c, l.getLast? = some c → is_space_char c = false) : strip_ws l = l := by
  unfold strip_ws lstrip_ws
  rw [dropWhile_eq_self_of_head? _ _ hh]
  rw [dropWhile_eq_self_of_head? _ _ (by intro c hc; rw [List.head?_reverse] at hc; exact hl c hc)]
  exact List.reverse_reverse l

/-- The head of a stripped list is not whitespace. -/
theorem head?_strip_ws (l : List Char) (c : Char) (h : (strip_ws l).head? = some c) :
    is_space_char c = false := by
  unfold strip_ws at h
  rw [List.head?_reverse] at h
  rcases hX : (lstrip_ws l).reverse.dropWhile is_space_char with _ | ⟨d, X2⟩
  · rw [hX] at h
    simp at h
  · rw [hX] at h
    have hsuf : (d :: X2) <:+ (lstrip_ws l).reverse := by
      rw [← hX]
      exact List.dropWhile_suffix is_space_char
    obtain ⟨t, ht⟩ := hsuf
    have : (lstrip_ws l).reverse.getLast? = some c := by
      rw [← ht, List.getLast?_append]
      rw [h]
      rfl
    rw [List.getLast?_reverse] at this
    exact head?_dropWhile_false is_space_char l c this

/-- The last character of a stripped list is not whitespace. -/
theorem getLast?_strip_ws (l : List Char) (c : Char) (h : (strip_ws l).getLast? = some c) :
    is_space_char c = false := by
  unfold strip_ws at h
  rw [List.getLast?_reverse] at h
  exact head?_dropWhile_false is_space_char (lstrip_ws l).reverse c h

/-- `strip_ws` is idempotent. -/
theorem strip_ws_idem (l : List Char) : strip_ws (strip_ws l) = strip_ws l :=
  strip_ws_eq_self (strip_ws l)
    (fun c hc => head?_strip_ws l c hc)
    (fun c hc => getLast?_strip_ws l c hc)

/-- `preprocess_text` output contains only word characters and
whitespace. -/
theorem keep_of_mem_preprocess (l : List Char) :
    ∀ c ∈ preprocess_text l, keep_char c = true := by
  intro c hc
  unfold preprocess_text remove_punct at hc
  exact (List.mem_filter.mp hc).2

/-- On punctuation-free input the final filter of `preprocess_text`
is the identity. -/
theorem preprocess_of_keep (y : List Char) (hy : ∀ c ∈ y, keep_char c = true) :
    preprocess_text y = strip_ws (collapse_ws y) := by
  unfold preprocess_text remove_punct
  rw [List.filter_eq_self.mpr]
  intro c hc
  have hc2 : c ∈ collapse_ws y := (strip_ws_segment (collapse_ws y)).subset hc
  rcases mem_collapse_ws y c hc2 with h | h
  · rw [h]
    decide
  · exact hy c h

/-- `preprocess_text` is idempotent on punctuation-free input. -/
theorem preprocess_fix_of_keep (y : List Char) (hy : ∀ c ∈ y, keep_char c = true) :
    preprocess_text (preprocess_text y) = preprocess_text y := by
  have hz := preprocess_of_keep y hy
  set z := strip_ws (collapse_ws y) with hzdef
  have hzkeep : ∀ c ∈ z, keep_char c = true := by
    intro c hc
    have hc2 : c ∈ collapse_ws y := (strip_ws_segment (collapse_ws y)).subset hc
    rcases mem_collapse_ws y c hc2 with h | h
    · rw [h]
      decide
    · exact hy c h
  have hcolz : collapse_ws z = z := by
    apply collapse_ws_eq_self
    · intro c hc hs
      exact spaces_collapse_ws y c ((strip_ws_segment (collapse_ws y)).subset hc) hs
    · exact List.Chain'.infix (chain'_collapse_ws y) (strip_ws_segment (collapse_ws y))
  have hstripz : strip_ws z = z := by
    rw [hzdef]
    exact strip_ws_idem (collapse_ws y)
  rw [hz, preprocess_of_keep z hzkeep, hcolz, hstripz]

/-- C9 (amended): one application of `preprocess_text` is not
idempotent, but its image after two applications is a fixpoint: a third
application changes nothing.  (Removing punctuation after collapsing
whitespace can leave a double space, which only the next application
collapses.) -/
theorem preprocess_twice_fixpoint (l : List Char) :
    preprocess_text (preprocess_text (preprocess_text l)) =
      preprocess_text (preprocess_text l) :=
  preprocess_fix_of_keep (preprocess_text l) (keep_of_mem_preprocess l)

/-- C9 (counterexample): on `"a . b"` one application yields
`"a  b"` (double space left where the dot was deleted), a second yields
`"a b"` — preprocessing is not idempotent. -/
theorem preprocess_not_idempotent_cex :
    preprocess_text (preprocess_text "a . b".toList) ≠ preprocess_text "a . b".toList := by
  decide

/-! ## UTF-8 round-trip lemmas -/

/-- The scalar value of a `Char` is a valid code point. -/
theorem char_toNat_valid (c : Char) : c.toNat.isValidChar := by
  rcases c.valid with h | h
  · exact Or.inl h
  · exact Or.inr h

/-- `Char.ofNat` inverts `Char.toNat` on valid code points. -/
theorem toNat_ofNat_valid {n : Nat} (h : n.isValidChar) : (Char.ofNat n).toNat = n := by
  simp only [Char.ofNat, dif_pos h, Char.ofNatAux, Char.toNat]
  simp [UInt32.toNat, UInt32.ofNatCore]

/-- The decoding fuel is irrelevant as long as it covers the byte
count: each decoded character consumes at least one byte. -/
theorem utf8_decode_go_congr :
    ∀ (n : Nat) (bs : List Nat) (f g : Nat), bs.length ≤ n → bs.length ≤ f →
      bs.length ≤ g → utf8_decode_go f bs = utf8_decode_go g bs := by
  intro n
  induction n with
  | zero =>
    intro bs f g hn hf hg
    have hbs : bs = [] := List.length_eq_zero.mp (Nat.le_zero.mp hn)
    subst hbs
    simp only [utf8_decode_go]
  | succ n ih =>
    intro bs f g hn hf hg
    rcases bs with _ | ⟨b0, rest⟩
    · simp only [utf8_decode_go]
    · rcases f with _ | f
      · simp at hf
      · rcases g with _ | g
        · simp at hg
        · simp only [List.length_cons] at hn hf hg
          rcases rest with _ | ⟨b1, rest2⟩
          · simp only [utf8_decode_go]
          · simp only [List.length_cons] at hn hf hg
            rcases rest2 with _ | ⟨b2, rest3⟩
            · simp only [utf8_decode_go,
                ih [b1] f g (by simp; omega) (by simp; omega) (by simp; omega)]
            · simp only [List.length_cons] at hn hf hg
              rcases rest3 with _ | ⟨b3, rest4⟩
              · simp only [utf8_decode_go,
                  ih [b1, b2] f g (by simp; omega) (by simp; omega) (by simp; omega),
                  ih [b2] f g (by simp; omega) (by simp; omega) (by simp; omega)]
              · simp only [List.length_cons] at hn hf hg
                simp only [utf8_decode_go,
                  ih (b1 :: b2 :: b3 :: rest4) f g (by simp; omega) (by simp; omega)
                    (by simp; omega),
                  ih (b2 :: b3 :: rest4) f g (by simp; omega) (by simp; omega) (by simp; omega),
                  ih (b3 :: rest4) f g (by simp; omega) (by simp; omega) (by simp; omega),
                  ih rest4 f g (by omega) (by omega) (by omega)]


set_option maxRecDepth 4096 in
/-- Decoding a UTF-8-encoded character from the front of a byte
stream yields that character and continues on the remainder. -/
theorem utf8_decode_encode_char (c : Char) (bs : List Nat) :
    utf8_decode (encode_char c ++ bs) = (utf8_decode bs).map (fun s => c :: s) := by
  have hv := char_toNat_valid c
  have hv2 : c.toNat < 55296 ∨ (57343 < c.toNat ∧ c.toNat < 1114112) := hv
  by_cases h1 : c.toNat < 128
  · have he : encode_char c = [c.toNat] := by
      simp only [encode_char]
      rw [if_pos h1]
    rw [he]
    show utf8_decode_go (c.toNat :: bs).length (c.toNat :: bs) = _
    rcases bs with _ | ⟨b1, bs2⟩
    · simp only [List.length_cons, List.length_nil, utf8_decode_go.eq_4, if_pos h1,
        utf8_decode_go]
      rw [Char.ofNat_toNat]
      rfl
    · simp only [List.length_cons, utf8_decode_go.eq_3, if_pos h1, Char.ofNat_toNat]
      rfl
  · by_cases h2 : c.toNat < 2048
    · have he : encode_char c = [192 + c.toNat / 64, 128 + c.toNat % 64] := by
        simp only [encode_char]
        rw [if_neg h1, if_pos h2]
      rw [he]
      show utf8_decode_go ((192 + c.toNat / 64) :: (128 + c.toNat % 64) :: bs).length
        ([192 + c.toNat / 64, 128 + c.toNat % 64] ++ bs) = _
      simp only [List.cons_append, List.nil_append, List.length_cons, utf8_decode_go.eq_3]
      rw [if_neg (by omega), if_neg (by omega), if_pos (by omega)]
      have hd : dec2 (192 + c.toNat / 64) (128 + c.toNat % 64) = some c.toNat := by
        unfold dec2
        rw [if_pos (by omega)]
        congr 1
        omega
      simp only [hd, Char.ofNat_toNat]
      rw [utf8_decode_go_congr (bs.length + 1) bs (bs.length + 1) bs.length (by omega)
        (by omega) (by omega)]
      rfl
    · by_cases h3 : c.toNat < 65536
      · have he : encode_char c =
            [224 + c.toNat / 4096, 128 + c.toNat / 64 % 64, 128 + c.toNat % 64] := by
          simp only [encode_char]
          rw [if_neg h1, if_neg h2, if_pos h3]
        rw [he]
        show utf8_decode_go
          ((224 + c.toNat / 4096) :: (128 + c.toNat / 64 % 64) :: (128 + c.toNat % 64) :: bs).length
          ([224 + c.toNat / 4096, 128 + c.toNat / 64 % 64, 128 + c.toNat % 64] ++ bs) = _
        simp only [List.cons_append, List.nil_append, List.length_cons, utf8_decode_go.eq_3]
        rw [if_neg (by omega), if_neg (by omega), if_neg (by omega), if_pos (by omega)]
        have hd : dec3 (224 + c.toNat / 4096) (128 + c.toNat / 64 % 64)
            (128 + c.toNat % 64) = some c.toNat := by
          unfold dec3
          rw [if_pos (by omega)]
          congr 1
          omega
        simp only [hd, Char.ofNat_toNat]
        rw [utf8_decode_go_congr (bs.length + 2) bs (bs.length + 2) bs.length (by omega)
          (by omega) (by omega)]
        rfl
      · have h4 : c.toNat < 1114112 := by omega
        have he : encode_char c =
            [240 + c.toNat / 262144, 128 + c.toNat / 4096 % 64, 128 + c.toNat / 64 % 64,
              128 + c.toNat % 64] := by
          simp only [encode_char]
          rw [if_neg h1, if_neg h2, if_neg h3]
        rw [he]
        show utf8_decode_go
          ((240 + c.toNat / 262144) :: (128 + c.toNat / 4096 % 64) :: (128 + c.toNat / 64 % 64)
            :: (128 + c.toNat % 64) :: bs).length
          ([240 + c.toNat / 262144, 128 + c.toNat / 4096 % 64, 128 + c.toNat / 64 % 64,
            128 + c.toNat % 64] ++ bs) = _
        simp only [List.cons_append, List.nil_append, List.length_cons, utf8_decode_go.eq_3]
        rw [if_neg (by omega), if_neg (by omega), if_neg (by omega), if_neg (by omega),
          if_pos (by omega)]
        have hd : dec4 (240 + c.toNat / 262144) (128 + c.toNat / 4096 % 64)
            (128 + c.toNat / 64 % 64) (128 + c.toNat % 64) = some c.toNat := by
          unfold dec4
          rw [if_pos (by omega)]
          congr 1
          omega
        simp only [hd, Char.ofNat_toNat]
        rw [utf8_decode_go_congr (bs.length + 3) bs (bs.length + 3) bs.length (by omega)
          (by omega) (by omega)]
        rfl

/-- `utf8_encode` on a cons. -/
theorem utf8_encode_cons (c : Char) (s : List Char) :
    utf8_encode (c :: s) = encode_char c ++ utf8_encode s := rfl

/-- Completeness: the decoder accepts every encoded string. -/
theorem utf8_decode_encode (s : List Char) : utf8_decode (utf8_encode s) = some s := by
  induction s with
  | nil => rfl
  | cons c rest ih =>
    rw [utf8_encode_cons, utf8_decode_encode_char c (utf8_encode rest), ih]
    rfl

/-- A byte accepted as a 1-byte sequence re-encodes to itself. -/
theorem encode_sound1 (b0 : Nat) (hb : b0 < 128) : encode_char (Char.ofNat b0) = [b0] := by
  have hval : b0.isValidChar := Or.inl (by omega)
  have ht : (Char.ofNat b0).toNat = b0 := toNat_ofNat_valid hval
  simp only [encode_char, ht]
  rw [if_pos hb]

/-- A pair accepted by `dec2` re-encodes to the same two bytes. -/
theorem encode_sound2 (b0 b1 v : Nat) (hb : 194 ≤ b0) (hb2 : b0 < 224)
    (hdec : dec2 b0 b1 = some v) : encode_char (Char.ofNat v) = [b0, b1] := by
  unfold dec2 at hdec
  by_cases hc : 128 ≤ b1 ∧ b1 < 192
  · rw [if_pos hc] at hdec
    have hveq : (b0 - 192) * 64 + (b1 - 128) = v := by
      simpa using hdec
    have hval : v.isValidChar := Or.inl (by omega)
    have ht : (Char.ofNat v).toNat = v := toNat_ofNat_valid hval
    simp only [encode_char, ht]
    rw [if_neg (by omega), if_pos (by omega)]
    have e1 : 192 + v / 64 = b0 := by omega
    have e2 : 128 + v % 64 = b1 := by omega
    rw [e1, e2]
  · rw [if_neg hc] at hdec
    exact absurd hdec (by simp)

/-- A triple accepted by `dec3` re-encodes to the same three
bytes. -/
theorem encode_sound3 (b0 b1 b2 v : Nat) (hb : 224 ≤ b0) (hb2 : b0 < 240)
    (hdec : dec3 b0 b1 b2 = some v) : encode_char (Char.ofNat v) = [b0, b1, b2] := by
  unfold dec3 at hdec
  by_cases hc : (128 ≤ b1 ∧ b1 < 192) ∧ ¬(b0 = 224 ∧ b1 < 160) ∧ ¬(b0 = 237 ∧ 160 ≤ b1) ∧
      (128 ≤ b2 ∧ b2 < 192)
  · rw [if_pos hc] at hdec
    have hveq : (b0 - 224) * 4096 + (b1 - 128) * 64 + (b2 - 128) = v := by
      simpa using hdec
    obtain ⟨hc1, hc2, hc3, hc4⟩ := hc
    have hval : v.isValidChar := by
      show v < 55296 ∨ 57343 < v ∧ v < 1114112
      omega
    have ht : (Char.ofNat v).toNat = v := toNat_ofNat_valid hval
    simp only [encode_char, ht]
    rw [if_neg (by omega), if_neg (by omega), if_pos (by omega)]
    have e1 : 224 + v / 4096 = b0 := by omega
    have e2 : 128 + v / 64 % 64 = b1 := by omega
    have e3 : 128 + v % 64 = b2 := by omega
    rw [e1, e2, e3]
  · rw [if_neg hc] at hdec
    exact absurd hdec (by simp)

/-- A quadruple accepted by `dec4` re-encodes to the same four
bytes. -/
theorem encode_sound4 (b0 b1 b2 b3 v : Nat) (hb : 240 ≤ b0) (hb2 : b0 < 245)
    (hdec : dec4 b0 b1 b2 b3 = some v) : encode_char (Char.ofNat v) = [b0, b1, b2, b3] := by
  unfold dec4 at hdec
  by_cases hc : (128 ≤ b1 ∧ b1 < 192) ∧ ¬(b0 = 240 ∧ b1 < 144) ∧ ¬(b0 = 244 ∧ 144 ≤ b1) ∧
      (128 ≤ b2 ∧ b2 < 192) ∧ (128 ≤ b3 ∧ b3 < 192)
  · rw [if_pos hc] at hdec
    have hveq : (b0 - 240) * 262144 + (b1 - 128) * 4096 + (b2 - 128) * 64 + (b3 - 128) = v := by
      simpa using hdec
    obtain ⟨hc1, hc2, hc3, hc4, hc5⟩ := hc
    have hval : v.isValidChar := by
      show v < 55296 ∨ 57343 < v ∧ v < 1114112
      omega
    have ht : (Char.ofNat v).toNat = v := toNat_ofNat_valid hval
    simp only [encode_char, ht]
    rw [if_neg (by omega), if_neg (by omega), if_neg (by omega)]
    have e1 : 240 + v / 262144 = b0 := by omega
    have e2 : 128 + v / 4096 % 64 = b1 := by omega
    have e3 : 128 + v / 64 % 64 = b2 := by omega
    have e4 : 128 + v % 64 = b3 := by omega
    rw [e1, e2, e3, e4]
  · rw [if_neg hc] at hdec
    exact absurd hdec (by simp)

/-- Soundness: whatever the decoder accepts is the encoding of its
result. -/
theorem utf8_decode_go_sound :
    ∀ (n : Nat) (bs : List Nat) (f : Nat) (s : List Char), bs.length ≤ n →
      utf8_decode_go f bs = some s → utf8_encode s = bs := by
  intro n
  induction n with
  | zero =>
    intro bs f s hn h
    have hbs : bs = [] := List.length_eq_zero.mp (Nat.le_zero.mp hn)
    subst hbs
    simp only [utf8_decode_go] at h
    have hs : s = [] := by simpa using h.symm
    subst hs
    rfl
  | succ n ih =>
    intro bs f s hn h
    rcases bs with _ | ⟨b0, rest⟩
    · simp only [utf8_decode_go] at h
      have hs : s = [] := by simpa using h.symm
      subst hs
      rfl
    · rcases f with _ | f
      · simp only [utf8_decode_go] at h
        exact absurd h (by simp)
      · simp only [List.length_cons] at hn
        rcases rest with _ | ⟨b1, rest2⟩
        · simp only [utf8_decode_go] at h
          split at h
          · rename_i hb
            rw [Option.map_eq_some'] at h
            obtain ⟨t, hgo, hst⟩ := h
            subst hst
            have ht : t = [] := by simpa using hgo.symm
            subst ht
            rw [utf8_encode_cons, encode_sound1 b0 hb]
            rfl
          · split at h
            · exact absurd h (by simp)
            · split at h
              · exact absurd h (by simp)
              · split at h
                · exact absurd h (by simp)
                · split at h
                  · exact absurd h (by simp)
                  · exact absurd h (by simp)
        · simp only [List.length_cons] at hn
          rcases rest2 with _ | ⟨b2, rest3⟩
          · simp only [utf8_decode_go] at h
            split at h
            · rename_i hb
              rw [Option.map_eq_some'] at h
              obtain ⟨t, hgo, hst⟩ := h
              subst hst
              rw [utf8_encode_cons, ih [b1] f t (by simp; omega) hgo, encode_sound1 b0 hb]
              rfl
            · rename_i hb1
              split at h
              · exact absurd h (by simp)
              · rename_i hb2
                split at h
                · rename_i hb3
                  split at h
                  · rename_i v hdec
                    rw [Option.map_eq_some'] at h
                    obtain ⟨t, hgo, hst⟩ := h
                    subst hst
                    have ht : t = [] := by simpa using hgo.symm
                    subst ht
                    rw [utf8_encode_cons, encode_sound2 b0 b1 v (by omega) (by omega) hdec]
                    rfl
                  · exact absurd h (by simp)
                · split at h
                  · exact absurd h (by simp)
                  · split at h
                    · exact absurd h (by simp)
                    · exact absurd h (by simp)
          · simp only [List.length_cons] at hn
            rcases rest3 with _ | ⟨b3, rest4⟩
            · simp only [utf8_decode_go] at h
              split at h
              · rename_i hb
                rw [Option.map_eq_some'] at h
                obtain ⟨t, hgo, hst⟩ := h
                subst hst
                rw [utf8_encode_cons, ih [b1, b2] f t (by simp; omega) hgo, encode_sound1 b0 hb]
                rfl
              · rename_i hb1
                split at h
                · exact absurd h (by simp)
                · rename_i hb2
                  split at h
                  · rename_i hb3
                    split at h
                    · rename_i v hdec
                      rw [Option.map_eq_some'] at h
                      obtain ⟨t, hgo, hst⟩ := h
                      subst hst
                      rw [utf8_encode_cons, ih [b2] f t (by simp; omega) hgo,
                        encode_sound2 b0 b1 v (by omega) (by omega) hdec]
                      rfl
                    · exact absurd h (by simp)
                  · rename_i hb3
                    split at h
                    · rename_i hb4
                      split at h
                      · rename_i v hdec
                        rw [Option.map_eq_some'] at h
                        obtain ⟨t, hgo, hst⟩ := h
                        subst hst
                        have ht : t = [] := by simpa using hgo.symm
                        subst ht
                        rw [utf8_encode_cons, encode_sound3 b0 b1 b2 v (by omega) (by omega) hdec]
                        rfl
                      · exact absurd h (by simp)
                    · split at h
                      · exact absurd h (by simp)
                      · exact absurd h (by simp)
            · simp only [List.length_cons] at hn
              simp only [utf8_decode_go] at h
              split at h
              · rename_i hb
                rw [Option.map_eq_some'] at h
                obtain ⟨t, hgo, hst⟩ := h
                subst hst
                rw [utf8_encode_cons, ih (b1 :: b2 :: b3 :: rest4) f t (by simp; omega) hgo,
                  encode_sound1 b0 hb]
                rfl
              · rename_i hb1
                split at h
                · exact absurd h (by simp)
                · rename_i hb2
                  split at h
                  · rename_i hb3
                    split at h
                    · rename_i v hdec
                      rw [Option.map_eq_some'] at h
                      obtain ⟨t, hgo, hst⟩ := h
                      subst hst
                      rw [utf8_encode_cons, ih (b2 :: b3 :: rest4) f t (by simp; omega) hgo,
                        encode_sound2 b0 b1 v (by omega) (by omega) hdec]
                      rfl
                    · exact absurd h (by simp)
                  · rename_i hb3
                    split at h
                    · rename_i hb4
                      split at h
                      · rename_i v hdec
                        rw [Option.map_eq_some'] at h
                        obtain ⟨t, hgo, hst⟩ := h
                        subst hst
                        rw [utf8_encode_cons, ih (b3 :: rest4) f t (by simp; omega) hgo,
                          encode_sound3 b0 b1 b2 v (by omega) (by omega) hdec]
                        rfl
                      · exact absurd h (by simp)
                    · rename_i hb4
                      split at h
                      · rename_i hb5
                        split at h
                        · rename_i v hdec
                          rw [Option.map_eq_some'] at h
                          obtain ⟨t, hgo, hst⟩ := h
                          subst hst
                          rw [utf8_encode_cons, ih rest4 f t (by omega) hgo,
                            encode_sound4 b0 b1 b2 b3 v (by omega) (by omega) hdec]
                          rfl
                        · exact absurd h (by simp)
                      · exact absurd h (by simp)

/-- Soundness at the top level. -/
theorem utf8_decode_sound (bs : List Nat) (s : List Char) (h : utf8_decode bs = some s) :
    utf8_encode s = bs :=
  utf8_decode_go_sound bs.length bs bs.length s le_rfl h

/-- C10: `.txt` extraction decodes the payload as strict UTF-8 and
succeeds exactly when the payload is valid UTF-8 (i.e. is the encoding
of some sequence of Unicode scalar values); on invalid bytes the upload
fails with the decoding error, which is distinct from the
unsupported-format error. -/
theorem txt_decode_iff_valid_utf8 :
    (∀ bs : List Nat, (∃ s, utf8_decode bs = some s) ↔ (∃ s, utf8_encode s = bs)) ∧
      (∀ (pdfEx docxEx : List Nat → Except UploadError (List Char)) (fname : List Char)
        (content : List Nat),
        ".txt".toList.isSuffixOf fname = true → utf8_decode content = none →
        upload_file pdfEx docxEx fname content = Except.error UploadError.decodeError) ∧
      UploadError.decodeError ≠ UploadError.unsupportedFileType := by
  refine ⟨?_, ?_, by simp⟩
  · intro bs
    constructor
    · rintro ⟨s, hs⟩
      exact ⟨s, utf8_decode_sound bs s hs⟩
    · rintro ⟨s, hs⟩
      subst hs
      exact ⟨s, utf8_decode_encode s⟩
  · intro pdfEx docxEx fname content hsuf hdec
    have hpdf : ".pdf".toList.isSuffixOf fname = false :=
      isSuffixOf_excl hsuf (by decide) (by decide)
    have hdocx : ".docx".toList.isSuffixOf fname = false :=
      isSuffixOf_excl hsuf (by decide) (by decide)
    unfold upload_file extract_text extract_txt_text
    rw [if_neg (isSuffixOf_false_not_true hpdf), if_neg (isSuffixOf_false_not_true hdocx),
      if_pos hsuf, hdec]

/-- Witness for `txt_decode_iff_valid_utf8`: the lone byte `0xFF` is
not valid UTF-8, so uploading it as `a.txt` fails with the decoding
error. -/
theorem txt_decode_iff_valid_utf8_witness :
    upload_file (fun _ => Except.ok []) (fun _ => Except.ok []) "a.txt".toList [255] =
      Except.error UploadError.decodeError :=
  txt_decode_iff_valid_utf8.2.1 (fun _ => Except.ok []) (fun _ => Except.ok [])
    "a.txt".toList [255] (by decide) (by decide)

end RagService
